import Mathlib

/-!
Shallow embedding of the KursChern TCP server (src/server.cpp) and proofs
about its saturating sum-of-squares arithmetic, credential-file parsing,
authentication handshake and per-connection event ordering.
-/

namespace KursChern

/-! ## Saturating sum of squares (Server::calculateSumOfSquares) -/

/-- Effect of `static_cast<int16_t>` on a wider signed value: two's-complement
wrap into the range [-32768, 32767]. -/
def toInt16 (n : Int) : Int := (n + 32768) % 65536 - 32768

/-- The accumulation loop of `Server::calculateSumOfSquares`: for each element
the 64-bit square is added to the running 64-bit sum; if the sum exceeds 32767
the loop returns 32767 at once, if it falls below -32768 it returns -32768 at
once; after the last element the sum is narrowed to `int16_t`. -/
def calcLoop : List Int → Int → Int
  | [], sum => toInt16 sum
  | v :: rest, sum =>
    if sum + v * v > 32767 then 32767
    else if sum + v * v < -32768 then -32768
    else calcLoop rest (sum + v * v)

/-- `Server::calculateSumOfSquares`: 0 for the empty vector, otherwise the
clamping accumulation loop started from 0. -/
def calculateSumOfSquares (l : List Int) : Int :=
  if l.isEmpty then 0 else calcLoop l 0

/-- The mathematical sum of squares of a sequence (specification side). -/
def sumSquares (l : List Int) : Int := (l.map (fun v => v * v)).sum

/-- Clamping into [-32768, 32767] (specification side). -/
def clampInt16 (s : Int) : Int :=
  if s > 32767 then 32767 else if s < -32768 then -32768 else s

/-- The same loop instrumented with a flag recording whether the lower-clamp
branch (`return -32768`) was ever taken. -/
def calcLoopTraced : List Int → Int → Int × Bool
  | [], sum => (toInt16 sum, false)
  | v :: rest, sum =>
    if sum + v * v > 32767 then (32767, false)
    else if sum + v * v < -32768 then (-32768, true)
    else calcLoopTraced rest (sum + v * v)

/-! ## Credential file parsing (Server::loadUserDatabase) -/

/-- `line.find(SEP)` with SEP the colon character: index of the first
separator, `none` when absent (`std::string::npos`). -/
def findSep : List Char → Option Nat
  | [] => none
  | c :: rest => if c = ':' then some 0 else (findSep rest).map (· + 1)

/-- One iteration of the line-parsing loop in `Server::loadUserDatabase`:
the first separator must exist at an interior position
(`pos > 0 && pos < line.length() - 1`); the login is the text before it, the
secret the text after it; both are re-checked non-empty. -/
def parseLine (line : List Char) : Option (List Char × List Char) :=
  match findSep line with
  | none => none
  | some pos =>
    if pos > 0 ∧ pos < line.length - 1 then
      if line.take pos ≠ [] ∧ line.drop (pos + 1) ≠ [] then
        some (line.take pos, line.drop (pos + 1))
      else none
    else none

/-- The in-memory user table: a lookup from login to secret. -/
abbrev UserMap := List Char → Option (List Char)

/-- The whole parsing loop: each accepted line overwrites the mapping entry for
its login (`users[login] = password`). -/
def loadLines (lines : List (List Char)) : UserMap :=
  lines.foldl
    (fun m line =>
      match parseLine line with
      | some (login, password) => fun k => if k = login then some password else m k
      | none => m)
    (fun _ => none)

/-- A record handed to the logging collaborator: message text plus the
criticality flag (`logError(message, isCritical)`). -/
inductive LogEvent where
  | log (msg : String) (critical : Bool)
deriving DecidableEq

/-- The criticality flag of a log record. -/
def LogEvent.isCritical : LogEvent → Bool
  | .log _ c => c

/-- `Server::loadUserDatabase`: the input is `none` when the credential file
cannot be opened, `some lines` otherwise. On open failure the function logs
"Cannot open user database file" with the critical flag set to `true` and
returns with the user table still empty; otherwise it parses every line. -/
def loadUserDatabase (file : Option (List (List Char))) :
    UserMap × List LogEvent :=
  match file with
  | none => (fun _ => none, [LogEvent.log "Cannot open user database file" true])
  | some lines => (loadLines lines, [])

/-! ## Authentication handshake (Server::authenticate) -/

/-- Effect of `buffer[bytesRead] = 0; std::string s(buffer)` on the received
bytes: at most 255 bytes fit the 256-byte buffer, and the C-string
constructor stops at the first NUL byte. -/
def cstr (bytes : List Char) : List Char :=
  (bytes.take 255).takeWhile (fun c => c ≠ Char.ofNat 0)

/-- Uppercasing applied byte-wise (`std::toupper` over the string). -/
def toUpperStr (s : List Char) : List Char := s.map Char.toUpper

/-- One lowercase hexadecimal digit as `std::hex` renders it. -/
def hexDigit (n : Nat) : Char :=
  if n < 10 then Char.ofNat (48 + n) else Char.ofNat (87 + n)

/-- Fixed-width zero-padded lowercase hexadecimal rendering
(`std::hex << std::setfill(ZERO) << std::setw(width)`), most significant
digit first. -/
def natToHexDigits (n width : Nat) : List Char :=
  (List.range width).reverse.map (fun i => hexDigit (n / 16 ^ i % 16))

/-- `Server::sha224Hash`: the digest bytes themselves are produced by OpenSSL
(external to the repository), abstracted here as the `digest` parameter; the
function renders each digest byte as two lowercase hex digits and uppercases
the result. -/
def sha224Hash (digest : List Char → List Nat) (input : List Char) :
    List Char :=
  toUpperStr (((digest input).map (fun b => natToHexDigits (b % 256) 2)).flatten)

/-- `Server::generateSalt`: a 64-bit random value rendered as 16 uppercase hex
characters; the random value is the parameter. -/
def generateSalt (v : Nat) : List Char :=
  toUpperStr (natToHexDigits (v % 2 ^ 64) 16)

/-- Observable output actions of `Server::authenticate` on one connection. -/
inductive AuthEvent where
  | sendErr
  | genSalt
  | sendSalt
  | sendOk
deriving DecidableEq

/-- `Server::authenticate` as a function of the connection's inputs: `users`
is the credential table, `hash` the digest primitive, `loginBytes` the bytes
of the first client message (`[]` when the receive fails), `salt` the
generated salt string, `saltSendOk` whether the 16-byte salt send succeeds,
and `respBytes` the bytes of the client's response message. Returns the
success flag and the ordered trace of output actions. -/
def authenticate (users : UserMap) (hash : List Char → List Char)
    (loginBytes salt : List Char) (saltSendOk : Bool)
    (respBytes : List Char) : Bool × List AuthEvent :=
  if loginBytes = [] then (false, [])
  else
    match users (cstr loginBytes) with
    | none => (false, [AuthEvent.sendErr])
    | some password =>
      if saltSendOk = false then (false, [AuthEvent.genSalt, AuthEvent.sendSalt])
      else if respBytes = [] then (false, [AuthEvent.genSalt, AuthEvent.sendSalt])
      else if hash (salt ++ password) = toUpperStr (cstr respBytes) then
        (true, [AuthEvent.genSalt, AuthEvent.sendSalt, AuthEvent.sendOk])
      else
        (false, [AuthEvent.genSalt, AuthEvent.sendSalt, AuthEvent.sendErr])

/-! ## Vector protocol engine (Server::processVectors) -/

/-- Observable socket actions of `Server::processVectors`, indexed by the
vector number. -/
inductive VecEvent where
  | readCount
  | readSize (i : Nat)
  | readData (i : Nat)
  | writeResult (i : Nat) (r : Int)
deriving DecidableEq

/-- The inputs the peer supplies to one run of `Server::processVectors`:
the declared vector count (`none` when the 4-byte read falls short), and per
vector its declared size (`none` on a short read), whether the element-data
read loop completes, the element values, and whether the 2-byte result send
succeeds. -/
structure VecInput where
  count : Option Nat
  sizeAt : Nat → Option Nat
  dataReadOk : Nat → Bool
  elemAt : Nat → Nat → Int
  sendResultOk : Nat → Bool

/-- One iteration of the per-vector loop: read the size (abort on short read),
read the elements (abort on failure), compute the saturating sum of squares
and send it at once; the Bool says whether the loop continues. -/
def processItem (inp : VecInput) (i : Nat) : List VecEvent × Bool :=
  match inp.sizeAt i with
  | none => ([VecEvent.readSize i], false)
  | some size =>
    if inp.dataReadOk i then
      ([VecEvent.readSize i, VecEvent.readData i,
        VecEvent.writeResult i
          (calculateSumOfSquares ((List.range size).map (inp.elemAt i)))],
        inp.sendResultOk i)
    else ([VecEvent.readSize i, VecEvent.readData i], false)

/-- The per-vector loop of `Server::processVectors`, starting at vector `i`
with `n` vectors left. -/
def processLoop (inp : VecInput) : Nat → Nat → List VecEvent
  | _, 0 => []
  | i, n + 1 =>
    if (processItem inp i).2 then
      (processItem inp i).1 ++ processLoop inp (i + 1) n
    else (processItem inp i).1

/-- `Server::processVectors`: read the vector count, then run the per-vector
loop; the whole trace of socket actions. -/
def processVectors (inp : VecInput) : List VecEvent :=
  match inp.count with
  | none => [VecEvent.readCount]
  | some n => VecEvent.readCount :: processLoop inp 0 n

/-! ## Connection dispatch (Server::handleClient) -/

/-- Observable actions on one whole connection. -/
inductive ConnEvent where
  | auth (e : AuthEvent)
  | vec (e : VecEvent)
  | closeConn
deriving DecidableEq

/-- Whether an action belongs to the vector-processing phase. -/
def ConnEvent.isVec : ConnEvent → Bool
  | .vec _ => true
  | _ => false

/-- `Server::handleClient`: run the handshake; on failure close the
connection at once; on success run the vector protocol engine on the same
connection and then close it. -/
def handleClient (users : UserMap) (hash : List Char → List Char)
    (loginBytes salt : List Char) (saltSendOk : Bool)
    (respBytes : List Char) (vinp : VecInput) : List ConnEvent :=
  if (authenticate users hash loginBytes salt saltSendOk respBytes).1 then
    (authenticate users hash loginBytes salt saltSendOk respBytes).2.map ConnEvent.auth
      ++ (processVectors vinp).map ConnEvent.vec ++ [ConnEvent.closeConn]
  else
    (authenticate users hash loginBytes salt saltSendOk respBytes).2.map ConnEvent.auth
      ++ [ConnEvent.closeConn]

/-! ## Helper lemmas: saturating sum of squares -/

theorem sumSquares_nonneg (l : List Int) : 0 ≤ sumSquares l := by
  induction l with
  | nil => simp [sumSquares]
  | cons v rest ih =>
    simp only [sumSquares, List.map_cons, List.sum_cons]
    have hv : 0 ≤ v * v := mul_self_nonneg v
    have := ih
    simp only [sumSquares] at this
    omega

theorem sumSquares_cons (v : Int) (l : List Int) :
    sumSquares (v :: l) = v * v + sumSquares l := by
  simp [sumSquares]

theorem toInt16_eq_self (n : Int) (h0 : -32768 ≤ n) (h1 : n ≤ 32767) :
    toInt16 n = n := by
  unfold toInt16
  omega

theorem calcLoop_eq_clamp (l : List Int) (s : Int) (h0 : 0 ≤ s)
    (h1 : s ≤ 32767) :
    calcLoop l s = if s + sumSquares l > 32767 then 32767 else s + sumSquares l := by
  induction l generalizing s with
  | nil =>
    simp only [calcLoop, sumSquares, List.map_nil, List.sum_nil, add_zero]
    rw [toInt16_eq_self s (by omega) h1, if_neg (by omega)]
  | cons v rest ih =>
    have hv : 0 ≤ v * v := mul_self_nonneg v
    have hrest : 0 ≤ sumSquares rest := sumSquares_nonneg rest
    rw [calcLoop, sumSquares_cons]
    by_cases hbig : s + v * v > 32767
    · rw [if_pos hbig, if_pos (by omega)]
    · rw [if_neg hbig, if_neg (by omega),
        ih (s + v * v) (by omega) (by omega)]
      congr 1 <;> rw [add_assoc]

theorem calculateSumOfSquares_eq_clamp (l : List Int) :
    calculateSumOfSquares l = clampInt16 (sumSquares l) := by
  cases l with
  | nil => simp [calculateSumOfSquares, clampInt16, sumSquares]
  | cons v rest =>
    have h := calcLoop_eq_clamp (v :: rest) 0 le_rfl (by omega)
    have hnn : 0 ≤ sumSquares (v :: rest) := sumSquares_nonneg _
    simp only [calculateSumOfSquares, List.isEmpty_cons, if_neg Bool.false_ne_true, h,
      zero_add, clampInt16]
    rw [if_neg (by omega : ¬ sumSquares (v :: rest) < -32768)]

theorem calcLoopTraced_fst (l : List Int) (s : Int) :
    (calcLoopTraced l s).1 = calcLoop l s := by
  induction l generalizing s with
  | nil => simp [calcLoopTraced, calcLoop]
  | cons v rest ih =>
    rw [calcLoopTraced, calcLoop]
    by_cases hbig : s + v * v > 32767
    · rw [if_pos hbig, if_pos hbig]
    · rw [if_neg hbig, if_neg hbig]
      by_cases hlow : s + v * v < -32768
      · rw [if_pos hlow, if_pos hlow]
      · rw [if_neg hlow, if_neg hlow, ih]

theorem calcLoopTraced_snd (l : List Int) (s : Int) (h0 : 0 ≤ s) :
    (calcLoopTraced l s).2 = false := by
  induction l generalizing s with
  | nil => simp [calcLoopTraced]
  | cons v rest ih =>
    have hv : 0 ≤ v * v := mul_self_nonneg v
    rw [calcLoopTraced]
    by_cases hbig : s + v * v > 32767
    · rw [if_pos hbig]
    · rw [if_neg hbig, if_neg (by omega : ¬ s + v * v < -32768)]
      exact ih (s + v * v) (by omega)

/-! ## Claim theorems: arithmetic -/

/-- C1: for every sequence of 16-bit signed integers, `calculateSumOfSquares`
returns the mathematical sum of the squares of the elements clamped to the
range [-32768, 32767], the empty sequence maps to 0, and the quoted examples
[1,2,3,4] ↦ 30, [-1,2,-3,4] ↦ 30, [200,200] ↦ 32767 hold. -/
theorem calculateSumOfSquares_spec :
    (∀ l : List Int, calculateSumOfSquares l = clampInt16 (sumSquares l))
      ∧ calculateSumOfSquares [] = 0
      ∧ calculateSumOfSquares [1, 2, 3, 4] = 30
      ∧ calculateSumOfSquares [-1, 2, -3, 4] = 30
      ∧ calculateSumOfSquares [200, 200] = 32767 :=
  ⟨calculateSumOfSquares_eq_clamp, by decide, by decide, by decide, by decide⟩

/-- C2: in `calculateSumOfSquares` the running sum never decreases when a
square is added, and the branch returning -32768 (the lower clamp) is never
taken on any input: the instrumented loop, which computes the same value as
the real one, never raises its lower-clamp flag when started from 0. -/
theorem lower_clamp_never_taken :
    (∀ (s v : Int), s ≤ s + v * v)
      ∧ (∀ l : List Int, (calcLoopTraced l 0).2 = false)
      ∧ (∀ (l : List Int) (s : Int), (calcLoopTraced l s).1 = calcLoop l s) :=
  ⟨fun _ v => le_add_of_nonneg_right (mul_self_nonneg v),
    fun l => calcLoopTraced_snd l 0 le_rfl,
    calcLoopTraced_fst⟩

/-- C10: `calculateSumOfSquares` is invariant under permutation of its input,
despite the early-exit clamping at 32767. -/
theorem calculateSumOfSquares_perm_invariant (l l' : List Int)
    (h : l.Perm l') :
    calculateSumOfSquares l = calculateSumOfSquares l' := by
  rw [calculateSumOfSquares_eq_clamp, calculateSumOfSquares_eq_clamp]
  congr 1
  exact (h.map fun v => v * v).sum_eq

/-- Witness for C10 at the concrete permutation [1, 2] ~ [2, 1]. -/
theorem calculateSumOfSquares_perm_invariant_witness :
    ([1, 2] : List Int).Perm [2, 1]
      ∧ calculateSumOfSquares [1, 2] = calculateSumOfSquares [2, 1] :=
  ⟨List.Perm.swap 2 1 [], calculateSumOfSquares_perm_invariant [1, 2] [2, 1]
    (List.Perm.swap 2 1 [])⟩

/-! ## Helper lemmas: credential line parsing -/

theorem findSep_append (a b : List Char) (h : ':' ∉ a) :
    findSep (a ++ ':' :: b) = some a.length := by
  induction a with
  | nil => simp [findSep]
  | cons c rest ih =>
    have hc : ¬ c = ':' := fun hc => h (by simp [hc])
    have hrest : ':' ∉ rest := fun hm => h (List.mem_cons_of_mem c hm)
    rw [List.cons_append, findSep, if_neg hc, ih hrest]
    rfl

theorem findSep_decomp (l : List Char) (pos : Nat) (h : findSep l = some pos) :
    l = l.take pos ++ ':' :: l.drop (pos + 1) ∧ ':' ∉ l.take pos ∧ pos < l.length := by
  induction l generalizing pos with
  | nil => simp [findSep] at h
  | cons c rest ih =>
    rw [findSep] at h
    by_cases hc : c = ':'
    · rw [if_pos hc] at h
      have hpos : pos = 0 := by simpa using h.symm
      subst hpos
      subst hc
      simp
    · rw [if_neg hc] at h
      cases hfs : findSep rest with
      | none => rw [hfs] at h; simp at h
      | some p =>
        rw [hfs] at h
        have hp : p + 1 = pos := by simpa using h
        subst hp
        obtain ⟨hdec, hnot, hlt⟩ := ih p hfs
        refine ⟨?_, ?_, ?_⟩
        · rw [List.take_succ_cons, List.drop_succ_cons, List.cons_append]
          exact congrArg (c :: ·) hdec
        · rw [List.take_succ_cons]
          intro hm
          rcases List.mem_cons.mp hm with hm | hm
          · exact hc hm.symm
          · exact hnot hm
        · simpa using Nat.succ_lt_succ hlt

/-! ## Claim theorems: credential loading -/

/-- C3 counterexample: the line "a:b:c" holds two separator characters, so by
the claim it should be skipped, yet `parseLine` records it (as login "a" with
secret "b:c"): the acceptance condition is not "exactly one separator". -/
theorem parseLine_two_sep_recorded :
    parseLine ['a', ':', 'b', ':', 'c'] = some (['a'], ['b', ':', 'c'])
      ∧ ¬ (['a', ':', 'b', ':', 'c'].count ':' = 1) := by
  exact ⟨by decide, by decide⟩

/-- C3 amended: a line is recorded if and only if it splits as
`login ++ ":" ++ secret` where the login holds no separator (the split is at
the FIRST separator, further separators stay inside the secret) and both
halves are non-empty; every other line is silently skipped. -/
theorem parseLine_accepts_iff (line login password : List Char) :
    parseLine line = some (login, password)
      ↔ line = login ++ ':' :: password ∧ ':' ∉ login
          ∧ login ≠ [] ∧ password ≠ [] := by
  constructor
  · intro h
    unfold parseLine at h
    split at h
    · simp at h
    · rename_i pos hfs
      obtain ⟨hdec, hnot, _⟩ := findSep_decomp line pos hfs
      split at h
      · split at h
        · rename_i hne
          simp only [Option.some.injEq, Prod.mk.injEq] at h
          obtain ⟨hl, hp⟩ := h
          subst hl
          subst hp
          exact ⟨hdec, hnot, hne.1, hne.2⟩
        · simp at h
      · simp at h
  · rintro ⟨rfl, hnot, hlog, hpw⟩
    have hfs : findSep (login ++ ':' :: password) = some login.length :=
      findSep_append login password hnot
    have hlen : (login ++ ':' :: password).length
        = login.length + password.length + 1 := by
      rw [List.length_append, List.length_cons]
      omega
    have hlp : 0 < login.length := List.length_pos.mpr hlog
    have hpp : 0 < password.length := List.length_pos.mpr hpw
    have htake : (login ++ ':' :: password).take login.length = login :=
      List.take_left login (':' :: password)
    have hdrop : (login ++ ':' :: password).drop (login.length + 1) = password := by
      have hsplit : login ++ ':' :: password = (login ++ [':']) ++ password := by
        simp
      have hlen2 : (login ++ [':']).length = login.length + 1 := by simp
      rw [hsplit, ← hlen2, List.drop_left]
    unfold parseLine
    split
    · rename_i hnone
      rw [hfs] at hnone
      simp at hnone
    · rename_i pos hsome
      rw [hfs] at hsome
      simp only [Option.some.injEq] at hsome
      subst hsome
      rw [if_pos ⟨hlp, by rw [hlen]; omega⟩, htake, hdrop,
        if_pos ⟨hlog, hpw⟩]

/-- C4 counterexample: when the credential file cannot be opened the single
log record emitted carries the criticality flag `true` (CRITICAL), so the
reported condition is not flagged as non-critical. -/
theorem loadUserDatabase_flags_critical :
    ¬ ((loadUserDatabase none).2.all (fun e => !e.isCritical) = true) := by
  decide

/-- C4 amended: when the credential file cannot be opened, `loadUserDatabase`
leaves the user mapping empty and returns normally so the service keeps
running with zero known users, but the condition it reports is flagged as
critical (`isCritical = true`), not non-critical. -/
theorem loadUserDatabase_unopenable :
    (∀ k, (loadUserDatabase none).1 k = none)
      ∧ (loadUserDatabase none).2
        = [LogEvent.log "Cannot open user database file" true] :=
  ⟨fun _ => rfl, rfl⟩

/-! ## Helper lemmas: hashing and handshake -/

theorem natToHexDigits_length (n w : Nat) : (natToHexDigits n w).length = w := by
  simp [natToHexDigits]

theorem hexPairs_length (bs : List Nat) :
    ((bs.map (fun b => natToHexDigits (b % 256) 2)).flatten).length
      = 2 * bs.length := by
  induction bs with
  | nil => simp
  | cons b rest ih =>
    simp only [List.map_cons, List.flatten_cons, List.length_append, ih,
      natToHexDigits_length, List.length_cons]
    omega

theorem sha224Hash_length (digest : List Char → List Nat) (input : List Char)
    (h : (digest input).length = 28) :
    (sha224Hash digest input).length = 56 := by
  unfold sha224Hash toUpperStr
  rw [List.length_map, hexPairs_length, h]

/-! ## Claim theorems: authentication handshake -/

/-- C5: for a received login token absent from the credential table,
`authenticate` sends only the literal 3-byte ERR token and fails; its trace
holds neither a salt generation nor a salt send, so the failure happens
strictly before any salt work on that connection. -/
theorem authenticate_unknown_login (users : UserMap)
    (hash : List Char → List Char) (loginBytes salt : List Char)
    (saltSendOk : Bool) (respBytes : List Char)
    (hne : loginBytes ≠ [])
    (hunk : users (cstr loginBytes) = none) :
    authenticate users hash loginBytes salt saltSendOk respBytes
        = (false, [AuthEvent.sendErr])
      ∧ AuthEvent.genSalt
          ∉ (authenticate users hash loginBytes salt saltSendOk respBytes).2
      ∧ AuthEvent.sendSalt
          ∉ (authenticate users hash loginBytes salt saltSendOk respBytes).2 := by
  have h : authenticate users hash loginBytes salt saltSendOk respBytes
      = (false, [AuthEvent.sendErr]) := by
    unfold authenticate
    rw [if_neg hne]
    split
    · rfl
    · rename_i password heq
      rw [hunk] at heq
      cases heq
  refine ⟨h, ?_, ?_⟩ <;> rw [h] <;> decide

/-- Witness for C5: empty credential table, login bytes "u". -/
theorem authenticate_unknown_login_witness :
    ((['u'] : List Char) ≠ []
        ∧ (fun _ : List Char => (none : Option (List Char))) (cstr ['u']) = none)
      ∧ (authenticate (fun _ => none) (fun _ => []) ['u'] [] true []
          = (false, [AuthEvent.sendErr])
        ∧ AuthEvent.genSalt
            ∉ (authenticate (fun _ => none) (fun _ => []) ['u'] [] true []).2
        ∧ AuthEvent.sendSalt
            ∉ (authenticate (fun _ => none) (fun _ => []) ['u'] [] true []).2) :=
  ⟨⟨by decide, rfl⟩,
    authenticate_unknown_login (fun _ => none) (fun _ => []) ['u'] [] true []
      (by decide) rfl⟩

/-- C6: for a known login (salt sent successfully, a response received),
`authenticate` succeeds — sending OK after the salt — exactly when the
uppercased received response equals the hex-rendered uppercase digest of the
16-character uppercase hex salt concatenated with the stored secret;
otherwise it sends ERR and fails. With a 28-byte digest the rendered hash is
exactly 56 characters. -/
theorem authenticate_known_login (users : UserMap)
    (digest : List Char → List Nat) (loginBytes : List Char) (saltV : Nat)
    (password respBytes : List Char)
    (hne : loginBytes ≠ [])
    (hfound : users (cstr loginBytes) = some password)
    (hresp : respBytes ≠ [])
    (hdig : (digest (generateSalt saltV ++ password)).length = 28) :
    ((authenticate users (sha224Hash digest) loginBytes (generateSalt saltV)
          true respBytes).1 = true
        ↔ toUpperStr (cstr respBytes)
            = sha224Hash digest (generateSalt saltV ++ password))
      ∧ ((authenticate users (sha224Hash digest) loginBytes (generateSalt saltV)
            true respBytes).1 = true →
          (authenticate users (sha224Hash digest) loginBytes (generateSalt saltV)
            true respBytes).2
            = [AuthEvent.genSalt, AuthEvent.sendSalt, AuthEvent.sendOk])
      ∧ ((authenticate users (sha224Hash digest) loginBytes (generateSalt saltV)
            true respBytes).1 = false →
          (authenticate users (sha224Hash digest) loginBytes (generateSalt saltV)
            true respBytes).2
            = [AuthEvent.genSalt, AuthEvent.sendSalt, AuthEvent.sendErr])
      ∧ (sha224Hash digest (generateSalt saltV ++ password)).length = 56 := by
  have hred : authenticate users (sha224Hash digest) loginBytes
      (generateSalt saltV) true respBytes
      = if sha224Hash digest (generateSalt saltV ++ password)
            = toUpperStr (cstr respBytes) then
          (true, [AuthEvent.genSalt, AuthEvent.sendSalt, AuthEvent.sendOk])
        else
          (false, [AuthEvent.genSalt, AuthEvent.sendSalt, AuthEvent.sendErr]) := by
    unfold authenticate
    rw [if_neg hne]
    split
    · rename_i heq
      rw [hfound] at heq
      cases heq
    · rename_i pw heq
      rw [hfound] at heq
      have hpw : pw = password := by
        simpa using heq.symm
      subst hpw
      rw [if_neg (by simp), if_neg hresp]
  rw [hred]
  by_cases hcmp : sha224Hash digest (generateSalt saltV ++ password)
      = toUpperStr (cstr respBytes)
  · rw [if_pos hcmp]
    exact ⟨by simp [hcmp.symm], fun _ => rfl, fun h => absurd h (by decide),
      sha224Hash_length digest _ hdig⟩
  · rw [if_neg hcmp]
    refine ⟨?_, fun h => absurd h (by decide), fun _ => rfl,
      sha224Hash_length digest _ hdig⟩
    constructor
    · intro h
      cases h
    · intro h
      exact absurd h.symm hcmp

/-- Witness for C6 at a concrete connection: one user "u" with secret "p", a
constant all-zero 28-byte digest, salt value 0, response bytes "x". -/
theorem authenticate_known_login_witness :
    ((['u'] : List Char) ≠ []
        ∧ (fun k : List Char => if k = ['u'] then some ['p'] else none)
            (cstr ['u']) = some ['p']
        ∧ (['x'] : List Char) ≠ []
        ∧ ((fun _ : List Char => List.replicate 28 0)
            (generateSalt 0 ++ ['p'])).length = 28)
      ∧ (((authenticate (fun k => if k = ['u'] then some ['p'] else none)
            (sha224Hash (fun _ => List.replicate 28 0)) ['u'] (generateSalt 0)
            true ['x']).1 = true
          ↔ toUpperStr (cstr ['x'])
              = sha224Hash (fun _ => List.replicate 28 0) (generateSalt 0 ++ ['p']))
        ∧ ((authenticate (fun k => if k = ['u'] then some ['p'] else none)
              (sha224Hash (fun _ => List.replicate 28 0)) ['u'] (generateSalt 0)
              true ['x']).1 = true →
            (authenticate (fun k => if k = ['u'] then some ['p'] else none)
              (sha224Hash (fun _ => List.replicate 28 0)) ['u'] (generateSalt 0)
              true ['x']).2
              = [AuthEvent.genSalt, AuthEvent.sendSalt, AuthEvent.sendOk])
        ∧ ((authenticate (fun k => if k = ['u'] then some ['p'] else none)
              (sha224Hash (fun _ => List.replicate 28 0)) ['u'] (generateSalt 0)
              true ['x']).1 = false →
            (authenticate (fun k => if k = ['u'] then some ['p'] else none)
              (sha224Hash (fun _ => List.replicate 28 0)) ['u'] (generateSalt 0)
              true ['x']).2
              = [AuthEvent.genSalt, AuthEvent.sendSalt, AuthEvent.sendErr])
        ∧ (sha224Hash (fun _ => List.replicate 28 0)
            (generateSalt 0 ++ ['p'])).length = 56) :=
  ⟨⟨by decide, by decide, by decide, by decide⟩,
    authenticate_known_login (fun k => if k = ['u'] then some ['p'] else none)
      (fun _ => List.replicate 28 0) ['u'] 0 ['p'] ['x']
      (by decide) (by decide) (by decide) (by decide)⟩

/-- C7 counterexample: the received byte sequence "a", NUL, "b" is truncated
at the embedded NUL before the credential lookup, so the login token is "a",
not the received bytes verbatim. -/
theorem cstr_truncates_at_nul :
    cstr ['a', Char.ofNat 0, 'b'] = ['a']
      ∧ cstr ['a', Char.ofNat 0, 'b'] ≠ ['a', Char.ofNat 0, 'b'] :=
  ⟨by decide, by decide⟩

/-- C7 amended: the login token looked up by `authenticate` is the received
bytes capped at 255 bytes and truncated at the first NUL byte; whenever the
received bytes hold no NUL and are at most 255 long, the token is the
received bytes verbatim (other control characters included). -/
theorem cstr_verbatim (bytes : List Char) (hlen : bytes.length ≤ 255)
    (hnul : Char.ofNat 0 ∉ bytes) : cstr bytes = bytes := by
  unfold cstr
  rw [List.take_of_length_le hlen]
  refine List.takeWhile_eq_self_iff.mpr ?_
  intro a ha
  simp only [decide_eq_true_eq, ne_eq]
  intro heq
  exact hnul (heq ▸ ha)

/-- Witness for C7 amended: the NUL-free two-byte sequence "ab" is looked up
verbatim. -/
theorem cstr_verbatim_witness :
    ((['a', 'b'] : List Char).length ≤ 255 ∧ Char.ofNat 0 ∉ (['a', 'b'] : List Char))
      ∧ cstr ['a', 'b'] = ['a', 'b'] :=
  ⟨⟨by decide, by decide⟩, cstr_verbatim ['a', 'b'] (by decide) (by decide)⟩

/-! ## Helper lemmas: vector protocol ordering -/

theorem processItem_readSize_mem (inp : VecInput) (i j : Nat)
    (h : VecEvent.readSize j ∈ (processItem inp i).1) : j = i := by
  cases hsize : inp.sizeAt i with
  | none =>
    simp only [processItem, hsize] at h
    simpa using h
  | some size =>
    cases hdata : inp.dataReadOk i with
    | false =>
      simp only [processItem, hsize, Bool.false_eq_true, if_neg] at h
      simpa [hdata] using h
    | true =>
      simp only [processItem, hsize] at h
      simpa [hdata] using h

theorem processItem_of_continue (inp : VecInput) (i : Nat)
    (h : (processItem inp i).2 = true) :
    ∃ r, (processItem inp i).1
      = [VecEvent.readSize i, VecEvent.readData i, VecEvent.writeResult i r] := by
  cases hsize : inp.sizeAt i with
  | none => simp [processItem, hsize] at h
  | some size =>
    cases hdata : inp.dataReadOk i with
    | false => simp [processItem, hsize, hdata] at h
    | true =>
      exact ⟨calculateSumOfSquares ((List.range size).map (inp.elemAt i)),
        by simp [processItem, hsize, hdata]⟩

theorem processLoop_result_before_next (inp : VecInput) (n : Nat) :
    ∀ i j : Nat, i ≤ j →
      VecEvent.readSize (j + 1) ∈ processLoop inp i n →
      ∃ r, List.Sublist [VecEvent.writeResult j r, VecEvent.readSize (j + 1)]
        (processLoop inp i n) := by
  induction n with
  | zero =>
    intro i j _ h
    simp [processLoop] at h
  | succ n ih =>
    intro i j hij h
    rw [processLoop] at h ⊢
    by_cases hok : (processItem inp i).2 = true
    · rw [if_pos hok] at h ⊢
      rcases List.mem_append.mp h with hmem | hmem
      · exact absurd (processItem_readSize_mem inp i (j + 1) hmem) (by omega)
      · by_cases hji : j = i
        · subst hji
          obtain ⟨r, hitem⟩ := processItem_of_continue inp j hok
          refine ⟨r, ?_⟩
          have h1 : List.Sublist [VecEvent.writeResult j r] (processItem inp j).1 :=
            List.singleton_sublist.mpr (by rw [hitem]; simp)
          have h2 : List.Sublist [VecEvent.readSize (j + 1)]
              (processLoop inp (j + 1) n) :=
            List.singleton_sublist.mpr hmem
          simpa using List.Sublist.append h1 h2
        · obtain ⟨r, hsub⟩ := ih (i + 1) j (by omega) hmem
          exact ⟨r, hsub.trans (List.sublist_append_right _ _)⟩
    · rw [if_neg hok] at h ⊢
      exact absurd (processItem_readSize_mem inp i (j + 1) h) (by omega)

/-! ## Claim theorems: protocol ordering -/

/-- C8: in `processVectors`, whenever the size field of vector i+1 is read,
the 2-byte result of vector i has already been written: the trace holds the
result write for vector i strictly before the framing read of vector i+1
(one result per vector, never batched). -/
theorem result_sent_before_next_vector (inp : VecInput) (i : Nat)
    (h : VecEvent.readSize (i + 1) ∈ processVectors inp) :
    ∃ r, List.Sublist [VecEvent.writeResult i r, VecEvent.readSize (i + 1)]
      (processVectors inp) := by
  cases hc : inp.count with
  | none =>
    simp only [processVectors, hc] at h
    simp at h
  | some n =>
    simp only [processVectors, hc] at h ⊢
    have hmem : VecEvent.readSize (i + 1) ∈ processLoop inp 0 n := by
      rcases List.mem_cons.mp h with h' | h'
      · simp at h'
      · exact h'
    obtain ⟨r, hsub⟩ :=
      processLoop_result_before_next inp n 0 i (Nat.zero_le i) hmem
    exact ⟨r, hsub.trans (List.sublist_cons_self _ _)⟩

/-- Witness for C8 on a concrete run: two vectors, each of one element 1. -/
theorem result_sent_before_next_vector_witness :
    (VecEvent.readSize 1 ∈ processVectors
        ⟨some 2, fun _ => some 1, fun _ => true, fun _ _ => 1, fun _ => true⟩)
      ∧ ∃ r, List.Sublist [VecEvent.writeResult 0 r, VecEvent.readSize 1]
          (processVectors
            ⟨some 2, fun _ => some 1, fun _ => true, fun _ _ => 1, fun _ => true⟩) :=
  ⟨by decide,
    result_sent_before_next_vector
      ⟨some 2, fun _ => some 1, fun _ => true, fun _ _ => 1, fun _ => true⟩ 0
      (by decide)⟩

/-- C9: when the handshake fails, the connection trace holds no
vector-processing action at all and ends with the connection being closed:
`processVectors` runs only after `authenticate` returns success. -/
theorem no_vector_processing_on_auth_failure (users : UserMap)
    (hash : List Char → List Char) (loginBytes salt : List Char)
    (saltSendOk : Bool) (respBytes : List Char) (vinp : VecInput)
    (hfail : (authenticate users hash loginBytes salt saltSendOk respBytes).1
      = false) :
    (handleClient users hash loginBytes salt saltSendOk respBytes vinp).all
        (fun e => !e.isVec) = true
      ∧ (handleClient users hash loginBytes salt saltSendOk respBytes vinp).getLast?
        = some ConnEvent.closeConn := by
  have hif : handleClient users hash loginBytes salt saltSendOk respBytes vinp
      = (authenticate users hash loginBytes salt saltSendOk respBytes).2.map
          ConnEvent.auth ++ [ConnEvent.closeConn] := by
    unfold handleClient
    rw [hfail]
    simp
  constructor
  · rw [hif, List.all_append]
    have h1 : ((authenticate users hash loginBytes salt saltSendOk
        respBytes).2.map ConnEvent.auth).all (fun e => !e.isVec) = true := by
      refine List.all_eq_true.mpr ?_
      intro e he
      obtain ⟨a, _, rfl⟩ := List.mem_map.mp he
      rfl
    rw [h1]
    rfl
  · rw [hif]
    simp

/-- Witness for C9: a connection whose login is unknown to an empty
credential table, with arbitrary vector-phase input. -/
theorem no_vector_processing_on_auth_failure_witness :
    ((authenticate (fun _ => none) (fun _ => []) ['u'] [] true []).1 = false)
      ∧ ((handleClient (fun _ => none) (fun _ => []) ['u'] [] true []
            ⟨some 1, fun _ => some 0, fun _ => true, fun _ _ => 0, fun _ => true⟩).all
            (fun e => !e.isVec) = true
        ∧ (handleClient (fun _ => none) (fun _ => []) ['u'] [] true []
            ⟨some 1, fun _ => some 0, fun _ => true, fun _ _ => 0, fun _ => true⟩).getLast?
          = some ConnEvent.closeConn) :=
  ⟨by decide,
    no_vector_processing_on_auth_failure (fun _ => none) (fun _ => []) ['u'] []
      true []
      ⟨some 1, fun _ => some 0, fun _ => true, fun _ _ => 0, fun _ => true⟩
      (by decide)⟩

end KursChern
